import Mathlib

/-!
# Verification of the IPCovSmearing track-smearing module

A shallow embedding of the binned covariance-smearing engine of
`modules/IPCovSmearing.cc` (delphes-rave): pt/eta bin lookup, loading of the
per-bin covariance matrices with the unit conversion and low-momentum
congruence corrections, the Cholesky cache, bin resolution with eta fallback,
and the per-track smearing transform.  Machine doubles are modelled by exact
real arithmetic.
-/

namespace IPCov

/-! ## Bin lookup (IPCovSmearing::Process, lines 231-239)

The source scans the edge list in order, recording the last index whose edge
is exceeded:

    int ptbin = -1;
    for(unsigned int i=0;i< ptbins.size();i++){
      if(pt > ptbins.at(i)) ptbin=i;
    }
-/

/-- One step per list element: `acc` is overwritten by the current index
whenever the edge is exceeded, exactly as the `for` loop does. -/
def binLoopAux {α : Type} [LinearOrder α] (x : α) : List α → ℕ → ℤ → ℤ
  | [], _, acc => acc
  | e :: es, i, acc => binLoopAux x es (i + 1) (if e < x then (i : ℤ) else acc)

/-- `binIndex edges x` is the value of the loop variable after the scan:
the last (hence greatest) index `i` with `x > edges[i]`, or `-1`. -/
def binIndex {α : Type} [LinearOrder α] (edges : List α) (x : α) : ℤ :=
  binLoopAux x edges 0 (-1)

/-- The pt bin edges pushed in `IPCovSmearing::Init` (lines 101-108). -/
def ptEdges : List ℝ := [10, 20, 50, 100, 200, 250, 500, 750]

/-- The eta bin edges pushed in `IPCovSmearing::Init` (lines 110-118). -/
def etaEdges : List ℝ := [0.0, 0.4, 0.8, 1.05, 1.5, 1.7, 2.0, 2.25, 2.7]

lemma binLoopAux_append {α : Type} [LinearOrder α] (x : α) (es : List α) (e : α) :
    ∀ (i : ℕ) (acc : ℤ), binLoopAux x (es ++ [e]) i acc =
      if e < x then ((i + es.length : ℕ) : ℤ) else binLoopAux x es i acc := by
  induction es with
  | nil =>
      intro i acc
      simp [binLoopAux]
  | cons f es ih =>
      intro i acc
      simp only [List.cons_append, binLoopAux, List.append_eq]
      rw [ih]
      have h2 : (i + 1) + es.length = i + (f :: es).length := by
        simp only [List.length_cons]; omega
      rw [h2]

lemma binIndex_append {α : Type} [LinearOrder α] (x : α) (es : List α) (e : α) :
    binIndex (es ++ [e]) x = if e < x then (es.length : ℤ) else binIndex es x := by
  simp [binIndex, binLoopAux_append]

/-- Characterization of the scan on a strictly ascending edge list: the result
lies in `[-1, length)` and an edge is exceeded exactly when its index is at
most the result, i.e. the result is the greatest exceeded index (or `-1` when
none is). -/
lemma binIndex_sorted_spec {α : Type} [LinearOrder α] (x : α) :
    ∀ es : List α, es.Sorted (· < ·) →
      -1 ≤ binIndex es x ∧ binIndex es x < es.length ∧
      ∀ i : ℕ, (h : i < es.length) → (es[i] < x ↔ (i : ℤ) ≤ binIndex es x) := by
  intro es
  induction es using List.reverseRecOn with
  | nil =>
      intro _
      refine ⟨le_refl _, by simp [binIndex, binLoopAux], ?_⟩
      intro i h
      simp at h
  | append_singleton es e ih =>
      intro hs
      obtain ⟨hes, -, hlt⟩ := List.pairwise_append.mp hs
      obtain ⟨ihl, ihu, ihc⟩ := ih hes
      by_cases hex : e < x
      · refine ⟨?_, ?_, ?_⟩
        · rw [binIndex_append, if_pos hex]
          exact le_trans (by norm_num) (Int.ofNat_nonneg _)
        · rw [binIndex_append, if_pos hex]
          simp [List.length_append]
        · intro i h
          rw [binIndex_append, if_pos hex]
          have hi : i ≤ es.length := by
            simp [List.length_append] at h; omega
          constructor
          · intro _
            exact_mod_cast hi
          · intro _
            rcases lt_or_eq_of_le hi with hi' | hi'
            · rw [List.getElem_append_left hi']
              exact lt_trans (hlt _ (List.getElem_mem hi') e (by simp)) hex
            · subst hi'
              rw [List.getElem_append_right (le_refl _)]
              simpa using hex
      · refine ⟨?_, ?_, ?_⟩
        · rw [binIndex_append, if_neg hex]
          exact ihl
        · rw [binIndex_append, if_neg hex]
          have : (es.length : ℤ) ≤ ((es ++ [e]).length : ℤ) := by
            simp [List.length_append]
          omega
        · intro i h
          rw [binIndex_append, if_neg hex]
          have hi : i ≤ es.length := by
            simp [List.length_append] at h; omega
          rcases lt_or_eq_of_le hi with hi' | hi'
          · rw [List.getElem_append_left hi']
            exact ihc i hi'
          · subst hi'
            rw [List.getElem_append_right (le_refl _)]
            simp only [Nat.sub_self, List.getElem_cons_zero]
            constructor
            · intro hc; exact absurd hc hex
            · intro hc; omega

lemma ptEdges_sorted : ptEdges.Sorted (· < ·) := by
  norm_num [ptEdges, List.sorted_cons]

lemma etaEdges_sorted : etaEdges.Sorted (· < ·) := by
  norm_num [etaEdges, List.sorted_cons]

lemma ptEdges_head (h : 0 < ptEdges.length) : ptEdges[0] = 10 := by
  norm_num [ptEdges]

lemma etaEdges_head (h : 0 < etaEdges.length) : etaEdges[0] = 0 := by
  norm_num [etaEdges]

end IPCov

namespace IPCov

/-- C4: for every pt, `binIndex ptEdges pt` is the greatest index `i` with
`pt > ptEdges[i]` (equivalently, index `i` is exceeded iff `i ≤ binIndex`),
or `-1` exactly when pt does not exceed 10; likewise `binIndex etaEdges`
over the eta edges with `-1` exactly when `|eta|` does not exceed 0.0;
comparison is strict; and the scenarios pt = 15 ↦ 0, pt = 5 ↦ -1,
|eta| = 0.9 ↦ 2 hold. -/
theorem claim_C4_bin_lookup :
    (∀ x : ℝ, -1 ≤ binIndex ptEdges x ∧ binIndex ptEdges x < 8 ∧
      ∀ i : ℕ, (h : i < ptEdges.length) →
        (ptEdges[i] < x ↔ (i : ℤ) ≤ binIndex ptEdges x)) ∧
    (∀ x : ℝ, binIndex ptEdges x = -1 ↔ x ≤ 10) ∧
    (∀ x : ℝ, -1 ≤ binIndex etaEdges x ∧ binIndex etaEdges x < 9 ∧
      ∀ i : ℕ, (h : i < etaEdges.length) →
        (etaEdges[i] < x ↔ (i : ℤ) ≤ binIndex etaEdges x)) ∧
    (∀ x : ℝ, binIndex etaEdges x = -1 ↔ x ≤ 0) ∧
    binIndex ptEdges 15 = 0 ∧ binIndex ptEdges 5 = -1 ∧ binIndex etaEdges 0.9 = 2 := by
  have hpt := fun x : ℝ => binIndex_sorted_spec x ptEdges ptEdges_sorted
  have heta := fun x : ℝ => binIndex_sorted_spec x etaEdges etaEdges_sorted
  refine ⟨?_, ?_, ?_, ?_, ?_, ?_, ?_⟩
  · intro x
    obtain ⟨h1, h2, h3⟩ := hpt x
    exact ⟨h1, by simpa [ptEdges] using h2, h3⟩
  · intro x
    obtain ⟨h1, -, h3⟩ := hpt x
    have hlen : 0 < ptEdges.length := by norm_num [ptEdges]
    have h0 := h3 0 hlen
    rw [ptEdges_head hlen] at h0
    push_cast at h0
    constructor
    · intro he
      by_contra hc
      push_neg at hc
      have := h0.mp hc
      omega
    · intro he
      have hnb : ¬ ((0 : ℤ) ≤ binIndex ptEdges x) := fun hb =>
        absurd (h0.mpr hb) (not_lt.mpr he)
      omega
  · intro x
    obtain ⟨h1, h2, h3⟩ := heta x
    exact ⟨h1, by simpa [etaEdges] using h2, h3⟩
  · intro x
    obtain ⟨h1, -, h3⟩ := heta x
    have hlen : 0 < etaEdges.length := by norm_num [etaEdges]
    have h0 := h3 0 hlen
    rw [etaEdges_head hlen] at h0
    push_cast at h0
    constructor
    · intro he
      by_contra hc
      push_neg at hc
      have := h0.mp hc
      omega
    · intro he
      have hnb : ¬ ((0 : ℤ) ≤ binIndex etaEdges x) := fun hb =>
        absurd (h0.mpr hb) (not_lt.mpr he)
      omega
  · norm_num [binIndex, ptEdges, binLoopAux]
  · norm_num [binIndex, ptEdges, binLoopAux]
  · norm_num [binIndex, etaEdges, binLoopAux]

/-- Witness for C4: the characterization applied at pt = 15, index 0. -/
theorem claim_C4_bin_lookup_witness :
    (0 : ℕ) < ptEdges.length ∧
    ((10 : ℝ) < 15 ↔ (0 : ℤ) ≤ binIndex ptEdges 15) := by
  have h := (claim_C4_bin_lookup.1 15).2.2 0 (by norm_num [ptEdges])
  refine ⟨by norm_num [ptEdges], ?_⟩
  simpa [ptEdges] using h

/-! ## Bin resolution with eta fallback (IPCovSmearing::getValidBins, lines 298-311)

    std::pair<int,int> IPCovSmearing::getValidBins(int ptbin, int etabin) {
      const auto& pt_mats = fSmearingMatrices[ptbin];
      if (!pt_mats.count(etabin)) {
        if (etabin == 0) {
          throw std::logic_error(...);
        } else {
          fNBinMisses++;
          return getValidBins(ptbin, etabin-1);
        }
      }
      return {ptbin, etabin};
    }

The cache membership test `fSmearingMatrices[ptbin].count(etabin)` is modelled
by a boolean predicate on the integer key pair, the `fNBinMisses` member by
explicit counter passing, and the thrown `std::logic_error` by `Except.error`.
The C++ recursion has no structural termination measure, so the embedding is
fuel-indexed: `none` means the recursion has not returned (normally or by
throwing) within `fuel` unfoldings. -/
def getValidBins (cache : ℤ → ℤ → Bool) :
    ℕ → ℤ → ℤ → ℕ → Option (Except Unit ((ℤ × ℤ) × ℕ))
  | 0, _, _, _ => none
  | fuel + 1, ptbin, etabin, misses =>
    if cache ptbin etabin then some (.ok ((ptbin, etabin), misses))
    else if etabin = 0 then some (.error ())
    else getValidBins cache fuel ptbin (etabin - 1) (misses + 1)

lemma getValidBins_pt_fixed (cache : ℤ → ℤ → Bool) :
    ∀ (fuel : ℕ) (ptbin etabin : ℤ) (misses m : ℕ) (p e : ℤ),
      getValidBins cache fuel ptbin etabin misses = some (.ok ((p, e), m)) →
      p = ptbin := by
  intro fuel
  induction fuel with
  | zero => intro _ _ _ _ _ _ h; simp [getValidBins] at h
  | succ f ih =>
      intro ptbin etabin misses m p e h
      rw [getValidBins] at h
      by_cases hc : cache ptbin etabin
      · rw [if_pos hc] at h
        simp at h
        exact h.1.1.symm
      · rw [if_neg hc] at h
        by_cases he : etabin = 0
        · rw [if_pos he] at h
          simp at h
        · rw [if_neg he] at h
          exact ih ptbin (etabin - 1) (misses + 1) m p e h

/-- C1: with the requested pair cached, `getValidBins` returns it unchanged
with the miss counter unchanged; on a miss with etaBin > 0 it returns the
recursive result at etaBin − 1 with the counter incremented by exactly one;
on a miss at etaBin = 0 it throws the logic error; and any normal return
carries the requested pt bin unchanged. -/
theorem claim_C1_bin_fallback :
    (∀ (cache : ℤ → ℤ → Bool) (fuel : ℕ) (ptbin etabin : ℤ) (misses : ℕ),
      cache ptbin etabin = true →
      getValidBins cache (fuel + 1) ptbin etabin misses =
        some (.ok ((ptbin, etabin), misses))) ∧
    (∀ (cache : ℤ → ℤ → Bool) (fuel : ℕ) (ptbin etabin : ℤ) (misses : ℕ),
      cache ptbin etabin = false → 0 < etabin →
      getValidBins cache (fuel + 1) ptbin etabin misses =
        getValidBins cache fuel ptbin (etabin - 1) (misses + 1)) ∧
    (∀ (cache : ℤ → ℤ → Bool) (fuel : ℕ) (ptbin : ℤ) (misses : ℕ),
      cache ptbin 0 = false →
      getValidBins cache (fuel + 1) ptbin 0 misses = some (.error ())) ∧
    (∀ (cache : ℤ → ℤ → Bool) (fuel : ℕ) (ptbin etabin : ℤ) (misses m : ℕ)
      (p e : ℤ),
      getValidBins cache fuel ptbin etabin misses = some (.ok ((p, e), m)) →
      p = ptbin) := by
  refine ⟨?_, ?_, ?_, fun cache => getValidBins_pt_fixed cache⟩
  · intro cache fuel ptbin etabin misses hc
    rw [getValidBins, if_pos hc]
  · intro cache fuel ptbin etabin misses hc he
    rw [getValidBins, if_neg (by simp [hc]), if_neg (by omega)]
  · intro cache fuel ptbin misses hc
    rw [getValidBins, if_neg (by simp [hc]), if_pos rfl]

/-- Witness for C1: a cache holding only eta bin 0 for every pt bin.  The hit
case at (3,0), the single fallback step at (3,1), the fatal case at (3,0) on
the empty cache, and pt-preservation on a concrete successful run. -/
theorem claim_C1_bin_fallback_witness :
    getValidBins (fun _ e => decide (e = 0)) 4 3 0 5 = some (.ok ((3, 0), 5)) ∧
    getValidBins (fun _ e => decide (e = 0)) 4 3 1 5 =
      getValidBins (fun _ e => decide (e = 0)) 3 3 0 6 ∧
    getValidBins (fun _ _ => false) 4 3 0 5 = some (.error ()) ∧
    (3 : ℤ) = 3 := by
  refine ⟨?_, ?_, ?_, ?_⟩
  · exact claim_C1_bin_fallback.1 (fun _ e => decide (e = 0)) 3 3 0 5 (by decide)
  · exact claim_C1_bin_fallback.2.1 (fun _ e => decide (e = 0)) 3 3 1 5
      (by decide) (by decide)
  · exact claim_C1_bin_fallback.2.2.1 (fun _ _ => false) 3 3 5 (by decide)
  · exact claim_C1_bin_fallback.2.2.2 (fun _ e => decide (e = 0)) 4 3 0 5 5 3 0
      (claim_C1_bin_fallback.1 (fun _ e => decide (e = 0)) 3 3 0 5 (by decide))

/-- C10: for a requested eta bin `e ≥ 0` the recursion returns (normally or
with the logic error) within `e + 1` unfoldings — at most `e` fallback steps;
but at eta bin −1, which the pipeline produces whenever |eta| does not exceed
the lowest edge 0.0 (e.g. eta = 0 exactly), a cache with no negative eta keys
sends the recursion through −2, −3, … and it never returns within any fuel. -/
theorem claim_C10_nontermination :
    (∀ (cache : ℤ → ℤ → Bool) (ptbin : ℤ) (e : ℕ) (misses fuel : ℕ),
      e < fuel → (getValidBins cache fuel ptbin e misses).isSome) ∧
    (∀ cache : ℤ → ℤ → Bool, (∀ p e : ℤ, e < 0 → cache p e = false) →
      ∀ (fuel : ℕ) (ptbin etabin : ℤ) (misses : ℕ), etabin < 0 →
        getValidBins cache fuel ptbin etabin misses = none) ∧
    binIndex etaEdges 0 = -1 := by
  refine ⟨?_, ?_, by norm_num [binIndex, etaEdges, binLoopAux]⟩
  · intro cache ptbin e
    induction e with
    | zero =>
        intro misses fuel hf
        obtain ⟨f, rfl⟩ : ∃ f, fuel = f + 1 := ⟨fuel - 1, by omega⟩
        rw [getValidBins]
        push_cast
        by_cases hc : cache ptbin 0
        · rw [if_pos hc]; rfl
        · rw [if_neg hc]; rfl
    | succ e ih =>
        intro misses fuel hf
        obtain ⟨f, rfl⟩ : ∃ f, fuel = f + 1 := ⟨fuel - 1, by omega⟩
        rw [getValidBins]
        push_cast
        by_cases hc : cache ptbin ((e : ℤ) + 1)
        · rw [if_pos hc]; rfl
        · rw [if_neg hc, if_neg (by omega : ¬((e : ℤ) + 1 = 0))]
          rw [show (e : ℤ) + 1 - 1 = (e : ℤ) by ring]
          exact ih (misses + 1) f (by omega)
  · intro cache hneg fuel
    induction fuel with
    | zero => intro _ _ _ _; rw [getValidBins]
    | succ f ih =>
        intro ptbin etabin misses he
        rw [getValidBins, if_neg (by simp [hneg ptbin etabin he]),
          if_neg (by omega)]
        exact ih ptbin (etabin - 1) (misses + 1) (by omega)

/-- Witness for C10: termination with fuel 3 at eta bin 2 on the empty cache,
and divergence at eta bin −1 for every fuel up to a sample value. -/
theorem claim_C10_nontermination_witness :
    (getValidBins (fun _ _ => false) 3 0 2 0).isSome ∧
    getValidBins (fun _ _ => false) 50 0 (-1) 0 = none := by
  constructor
  · exact claim_C10_nontermination.1 (fun _ _ => false) 0 2 0 3 (by omega)
  · exact claim_C10_nontermination.2.1 (fun _ _ => false)
      (fun _ _ _ => rfl) 50 0 (-1) 0 (by omega)

/-! ## Covariance loading (anonymous namespace, lines 322-366)

The matrix rows/columns are ordered (d0, z0, phi, theta, qoverp), i.e. the
`TrackParam` enum D0 = 0, Z0 = 1, PHI = 2, THETA = 3, QOVERP = 4. -/

/-- The Eigen `CovMatrix` typedef: a 5×5 real matrix. -/
abbrev CovMatrix := Matrix (Fin 5) (Fin 5) ℝ

/-- `convert_units_to_gev` (lines 362-366): congruence by the identity with
entry (4,4) set to 1000, i.e. by `diag(1,1,1,1,1000)`. -/
noncomputable def convert_units_to_gev (matrix : CovMatrix) : CovMatrix :=
  let gev_from_mev : CovMatrix := Matrix.diagonal ![1, 1, 1, 1, 1000]
  gev_from_mev * matrix * gev_from_mev

/-- `do_low_pt_hack` (lines 350-361): congruence by the identity with the D0
and Z0 diagonal entries set to `unct_mul = 2.0`, i.e. by `diag(2,2,1,1,1)`. -/
noncomputable def do_low_pt_hack (cov_matrix : CovMatrix) : CovMatrix :=
  let hack_matrix : CovMatrix := Matrix.diagonal ![2, 2, 1, 1, 1]
  hack_matrix * cov_matrix * hack_matrix

/-- `get_cov_matrix` (lines 323-349).  The parametrization file is modelled as
a partial map from the physical (ptbin, etabin) pair encoded in the object
name `covmat_ptbinXX_etabinYY`; `none` models the null `GetObject` result,
turned into the thrown (and later caught) `std::invalid_argument`.  For
`ptbin = -1` the name is formed with ptbin 0 and the low-pt hack is applied
after the unit conversion. -/
noncomputable def get_cov_matrix (src : ℕ → ℕ → Option CovMatrix)
    (ptbin : ℤ) (etabin : ℕ) : Option CovMatrix :=
  let pb : ℕ := if ptbin = -1 then 0 else ptbin.toNat
  (src pb etabin).map fun cptr =>
    let covariance := convert_units_to_gev cptr
    if ptbin = -1 then do_low_pt_hack covariance else covariance

/-- The lower-triangular Cholesky factor, as Eigen's `llt().matrixL()`: the
textbook LLT recurrence, row by row.  On a matrix that is not positive
definite Eigen produces numerically meaningless entries without signalling:
correspondingly this total function uses Lean's junk values for `sqrt` of a
negative number and division by zero, and no claim depends on the entries it
returns in that case. -/
noncomputable def cholL (a : CovMatrix) : CovMatrix :=
  let l00 := Real.sqrt (a 0 0)
  let l10 := a 1 0 / l00
  let l11 := Real.sqrt (a 1 1 - l10 ^ 2)
  let l20 := a 2 0 / l00
  let l21 := (a 2 1 - l20 * l10) / l11
  let l22 := Real.sqrt (a 2 2 - l20 ^ 2 - l21 ^ 2)
  let l30 := a 3 0 / l00
  let l31 := (a 3 1 - l30 * l10) / l11
  let l32 := (a 3 2 - l30 * l20 - l31 * l21) / l22
  let l33 := Real.sqrt (a 3 3 - l30 ^ 2 - l31 ^ 2 - l32 ^ 2)
  let l40 := a 4 0 / l00
  let l41 := (a 4 1 - l40 * l10) / l11
  let l42 := (a 4 2 - l40 * l20 - l41 * l21) / l22
  let l43 := (a 4 3 - l40 * l30 - l41 * l31 - l42 * l32) / l33
  let l44 := Real.sqrt (a 4 4 - l40 ^ 2 - l41 ^ 2 - l42 ^ 2 - l43 ^ 2)
  Matrix.of ![![l00, 0, 0, 0, 0],
              ![l10, l11, 0, 0, 0],
              ![l20, l21, l22, 0, 0],
              ![l30, l31, l32, l33, 0],
              ![l40, l41, l42, l43, l44]]

/-- `Init` loop body (lines 125-140), covariance side:
`CovMatrix cov = get_cov_matrix(file_para, ipt, ieta) * smear_mult;
fCovarianceMatrices[ipt][ieta] = cov;` with a missing bin (the caught
`std::invalid_argument`) leaving the entry unset. -/
noncomputable def initCovMatrices (mult : ℝ) (src : ℕ → ℕ → Option CovMatrix)
    (ptbin : ℤ) (etabin : ℕ) : Option CovMatrix :=
  (get_cov_matrix src ptbin etabin).map fun cov => mult • cov

/-- `Init` loop body, Cholesky side:
`fSmearingMatrices[ipt][ieta] = cov.llt().matrixL();` computed and stored for
every bin whose covariance was loaded — `llt()` raises nothing, so only the
missing-bin exception from `get_cov_matrix` skips a bin. -/
noncomputable def initSmearingMatrices (mult : ℝ)
    (src : ℕ → ℕ → Option CovMatrix) (ptbin : ℤ) (etabin : ℕ) :
    Option CovMatrix :=
  (initCovMatrices mult src ptbin etabin).map cholL

lemma diag_congr_entry (d : Fin 5 → ℝ) (m : CovMatrix) (i j : Fin 5) :
    (Matrix.diagonal d * m * Matrix.diagonal d) i j = d i * m i j * d j := by
  rw [Matrix.mul_diagonal, Matrix.diagonal_mul]

/-- C6: unit conversion is congruence by `diag(1,1,1,1,1000)`: entry (4,4)
is scaled by 1000², a cross entry with exactly one index 4 by 1000, all other
entries unchanged; and `get_cov_matrix` applies it to every matrix it loads
from the source. -/
theorem claim_C6_unit_conversion :
    (∀ m : CovMatrix, convert_units_to_gev m =
      Matrix.diagonal ![1, 1, 1, 1, 1000] * m * Matrix.diagonal ![1, 1, 1, 1, 1000]) ∧
    (∀ m : CovMatrix, convert_units_to_gev m 4 4 = 1000 ^ 2 * m 4 4) ∧
    (∀ (m : CovMatrix) (i : Fin 5), i ≠ 4 →
      convert_units_to_gev m i 4 = 1000 * m i 4 ∧
      convert_units_to_gev m 4 i = 1000 * m 4 i) ∧
    (∀ (m : CovMatrix) (i j : Fin 5), i ≠ 4 → j ≠ 4 →
      convert_units_to_gev m i j = m i j) ∧
    (∀ (src : ℕ → ℕ → Option CovMatrix) (ptbin : ℤ) (etabin : ℕ)
      (m : CovMatrix),
      src (if ptbin = -1 then 0 else ptbin.toNat) etabin = some m →
      get_cov_matrix src ptbin etabin = some
        (if ptbin = -1 then do_low_pt_hack (convert_units_to_gev m)
         else convert_units_to_gev m)) := by
  refine ⟨fun m => rfl, ?_, ?_, ?_, ?_⟩
  · intro m
    rw [convert_units_to_gev]
    rw [diag_congr_entry]
    norm_num
    ring
  · intro m i h
    rw [convert_units_to_gev]
    rw [diag_congr_entry, diag_congr_entry]
    fin_cases i
    · constructor <;> · norm_num; try ring
    · constructor <;> · norm_num; try ring
    · constructor <;> · norm_num; try ring
    · constructor <;> · norm_num; try ring
    · exact absurd rfl h
  · intro m i j hi hj
    rw [convert_units_to_gev, diag_congr_entry]
    fin_cases i <;> fin_cases j
    all_goals first
      | exact absurd rfl hi
      | exact absurd rfl hj
      | (norm_num)
  · intro src ptbin etabin m hsrc
    rw [get_cov_matrix]
    simp only [hsrc, Option.map_some]
    by_cases hp : ptbin = -1
    · simp [hp]
    · simp [hp]

/-- Witness for C6: the cross- and off-entry statements applied to a concrete
matrix at indices 0 and 4, and the loading statement on a one-entry source. -/
theorem claim_C6_unit_conversion_witness :
    (convert_units_to_gev 1 0 4 = 1000 * (1 : CovMatrix) 0 4 ∧
     convert_units_to_gev 1 4 0 = 1000 * (1 : CovMatrix) 4 0) ∧
    convert_units_to_gev 1 0 1 = (1 : CovMatrix) 0 1 ∧
    get_cov_matrix (fun _ _ => some 1) 2 3 = some (convert_units_to_gev 1) := by
  refine ⟨claim_C6_unit_conversion.2.2.1 1 0 (by decide), ?_, ?_⟩
  · exact claim_C6_unit_conversion.2.2.2.1 1 0 1 (by decide) (by decide)
  · have h := claim_C6_unit_conversion.2.2.2.2 (fun _ _ => some 1) 2 3 1 rfl
    simpa using h

/-- C5: the matrix stored under (ptbin = −1, etabin) is the stored bin-0
matrix of the same etabin (the object name is formed with ptbin 0) taken
through the congruence `H·M·H`, `H = diag(2,2,1,1,1)`: the (d0,d0) and
(z0,z0) entries are scaled by 2², entries with exactly one index in {d0,z0}
by 2, entries with neither index there are unchanged; and for ptbin ≥ 0 the
hack is never applied. -/
theorem claim_C5_low_pt_hack :
    (∀ (mult : ℝ) (src : ℕ → ℕ → Option CovMatrix) (etabin : ℕ)
      (mlow m0 : CovMatrix),
      initCovMatrices mult src (-1) etabin = some mlow →
      initCovMatrices mult src 0 etabin = some m0 →
      mlow = Matrix.diagonal ![2, 2, 1, 1, 1] * m0 *
        Matrix.diagonal ![2, 2, 1, 1, 1] ∧
      (mlow 0 0 = 2 ^ 2 * m0 0 0 ∧ mlow 1 1 = 2 ^ 2 * m0 1 1) ∧
      (∀ i j : Fin 5, (i = 0 ∨ i = 1) → j ≠ 0 → j ≠ 1 →
        mlow i j = 2 * m0 i j ∧ mlow j i = 2 * m0 j i) ∧
      (∀ i j : Fin 5, i ≠ 0 → i ≠ 1 → j ≠ 0 → j ≠ 1 →
        mlow i j = m0 i j)) ∧
    (∀ (mult : ℝ) (src : ℕ → ℕ → Option CovMatrix) (ptbin : ℤ) (etabin : ℕ),
      0 ≤ ptbin →
      initCovMatrices mult src ptbin etabin =
        (src ptbin.toNat etabin).map fun m =>
          mult • convert_units_to_gev m) := by
  constructor
  · intro mult src etabin mlow m0 hlow h0
    cases hsrc : src 0 etabin with
    | none =>
        rw [initCovMatrices, get_cov_matrix] at hlow
        simp [hsrc] at hlow
    | some m =>
        have hm : mlow = mult • do_low_pt_hack (convert_units_to_gev m) := by
          refine (Option.some.inj ?_).symm
          refine Eq.trans ?_ hlow
          rw [initCovMatrices, get_cov_matrix]
          simp [hsrc]
        have hm0 : m0 = mult • convert_units_to_gev m := by
          refine (Option.some.inj ?_).symm
          refine Eq.trans ?_ h0
          rw [initCovMatrices, get_cov_matrix]
          norm_num [hsrc]
        have key : mlow = Matrix.diagonal ![2, 2, 1, 1, 1] * m0 *
            Matrix.diagonal ![2, 2, 1, 1, 1] := by
          rw [hm, hm0, do_low_pt_hack]
          rw [Matrix.mul_smul, Matrix.smul_mul]
        refine ⟨key, ?_, ?_, ?_⟩
        · rw [key]
          constructor <;> · rw [diag_congr_entry]; norm_num; ring
        · intro i j hi hj0 hj1
          rw [key, diag_congr_entry, diag_congr_entry]
          rcases hi with rfl | rfl <;> fin_cases j <;>
            first
              | exact absurd rfl hj0
              | exact absurd rfl hj1
              | (constructor <;> · norm_num; try ring)
        · intro i j hi0 hi1 hj0 hj1
          rw [key, diag_congr_entry]
          fin_cases i <;> fin_cases j <;>
            first
              | exact absurd rfl hi0
              | exact absurd rfl hi1
              | exact absurd rfl hj0
              | exact absurd rfl hj1
              | norm_num
  · intro mult src ptbin etabin hpt
    rw [initCovMatrices, get_cov_matrix]
    have hne : ¬ ptbin = -1 := by omega
    simp only [if_neg hne, Option.map_map]
    rfl

/-- Witness for C5: a source with the identity matrix in every bin; the
hacked entries of the stored (−1, 0) matrix versus the stored (0, 0) matrix,
and the hack-free form of the stored (2, 3) entry. -/
theorem claim_C5_low_pt_hack_witness :
    (initCovMatrices 1 (fun _ _ => some 1) (-1) 0 = some
        (do_low_pt_hack (convert_units_to_gev 1)) →
      initCovMatrices 1 (fun _ _ => some 1) 0 0 = some
        (convert_units_to_gev 1) →
      do_low_pt_hack (convert_units_to_gev 1) 0 0 =
        2 ^ 2 * convert_units_to_gev 1 0 0) ∧
    initCovMatrices 1 (fun _ _ => some 1) 2 3 =
      Option.map (fun m => (1 : ℝ) • convert_units_to_gev m)
        ((fun (_ : ℕ) (_ : ℕ) => some (1 : CovMatrix)) (Int.toNat 2) 3) := by
  constructor
  · intro hlow h0
    exact ((claim_C5_low_pt_hack.1 1 (fun _ _ => some 1) 0
      (do_low_pt_hack (convert_units_to_gev 1))
      (convert_units_to_gev 1) hlow h0).2.1).1
  · exact claim_C5_low_pt_hack.2 1 (fun _ _ => some 1) 2 3 (by omega)

/-- C3 counterexample: the `Init` loop catches only the missing-object
`std::invalid_argument`; Eigen's `llt()` signals nothing on a matrix that is
not positive semi-definite, so such a bin is NOT dropped from the Cholesky
cache.  A source holding `diag(-1,-1,-1,-1,-1)` at bin (0,0) yields a stored
covariance that is not positive semi-definite, and the smearing-matrix cache
still holds a factor for that bin. -/
theorem claim_C3_cholesky_counterexample :
    ¬ (∀ (mult : ℝ) (src : ℕ → ℕ → Option CovMatrix) (ptbin : ℤ)
        (etabin : ℕ) (c : CovMatrix),
        initCovMatrices mult src ptbin etabin = some c →
        ¬ c.PosSemidef →
        initSmearingMatrices mult src ptbin etabin = none) := by
  intro hclaim
  have hbad := hclaim 1
    (fun _ _ => some (Matrix.diagonal ![-1, -1, -1, -1, -1])) 0 0
    (convert_units_to_gev (Matrix.diagonal ![-1, -1, -1, -1, -1]))
    (by
      rw [initCovMatrices, get_cov_matrix]
      norm_num)
    (by
      rw [convert_units_to_gev]
      rw [Matrix.diagonal_mul_diagonal, Matrix.diagonal_mul_diagonal]
      rw [Matrix.posSemidef_diagonal_iff]
      intro h
      have h0 := h 0
      norm_num at h0)
  rw [initSmearingMatrices, initCovMatrices, get_cov_matrix] at hbad
  norm_num at hbad
  exact Option.some_ne_none _ hbad

/-- C3 amended: a bin is unavailable in the Cholesky cache exactly when its
matrix is absent from the parametrization source (under the ptbin = −1 ↦ 0
name mapping); the factorization is attempted on every loaded matrix and its
result is stored unconditionally, positive semi-definite or not. -/
theorem claim_C3_amended :
    (∀ (mult : ℝ) (src : ℕ → ℕ → Option CovMatrix) (ptbin : ℤ) (etabin : ℕ),
      initSmearingMatrices mult src ptbin etabin =
        (initCovMatrices mult src ptbin etabin).map cholL) ∧
    (∀ (mult : ℝ) (src : ℕ → ℕ → Option CovMatrix) (ptbin : ℤ) (etabin : ℕ),
      (initSmearingMatrices mult src ptbin etabin).isSome ↔
        (src (if ptbin = -1 then 0 else ptbin.toNat) etabin).isSome) := by
  refine ⟨fun _ _ _ _ => rfl, ?_⟩
  intro mult src ptbin etabin
  rw [initSmearingMatrices, initCovMatrices, get_cov_matrix]
  cases src (if ptbin = -1 then 0 else ptbin.toNat) etabin <;> simp

/-! ## Per-track smearing (IPCovSmearing::Process, lines 168-296)

The kinematics (pt, eta, phi, mass, charge) are read from the wrapped
generated particle, the perigee displacement (Xd, Yd, Zd) from the track
itself.  Machine doubles are modelled by exact reals; division keeps Lean's
junk-total convention where the C++ code would produce an infinity. -/

/-- The per-track input state: `particle->Charge`, `particle->Momentum`
(pt, eta, phi, mass) and `track->Xd/Yd/Zd` (lines 192-217). -/
structure TrackIn where
  charge : ℤ
  pt : ℝ
  eta : ℝ
  phi : ℝ
  m : ℝ
  xd : ℝ
  yd : ℝ
  zd : ℝ

/-- The sampling-basis 5-vector `track_parameters << d0, z0, phi, theta,
qoverp` (lines 219-246): `px = pt·cos phi`, `py = pt·sin phi`,
`qoverp = charge/(pt·cosh eta)`, `theta = 2·atan(exp(-eta))`,
`d0 = (xd·py - yd·px)/pt`, `z0 = zd`. -/
noncomputable def forwardVec (t : TrackIn) : Fin 5 → ℝ :=
  let px := t.pt * Real.cos t.phi
  let py := t.pt * Real.sin t.phi
  let qoverp := (t.charge : ℝ) / (t.pt * Real.cosh t.eta)
  let theta := 2 * Real.arctan (Real.exp (-t.eta))
  let d0 := (t.xd * py - t.yd * px) / t.pt
  let z0 := t.zd
  ![d0, z0, t.phi, theta, qoverp]

/-- `TrackVector smeared = smearing_matrix * rand + track_parameters`
(lines 247-250). -/
noncomputable def smearedVec (L : CovMatrix) (t : TrackIn) (r : Fin 5 → ℝ) :
    Fin 5 → ℝ :=
  L.mulVec r + forwardVec t

/-- `double smeared_pt = charge/(smeared(QOVERP)*cosh(eta))` (line 269),
using the original, unsmeared eta. -/
noncomputable def reconstructedPt (L : CovMatrix) (t : TrackIn)
    (r : Fin 5 → ℝ) : ℝ :=
  (t.charge : ℝ) / (smearedVec L t r 4 * Real.cosh t.eta)

/-- The fields written into the cloned output candidate (lines 252-285). -/
structure TrackOut where
  pt : ℝ
  eta : ℝ
  phi : ℝ
  m : ℝ
  Dxy : ℝ
  SDxy : ℝ
  Xd : ℝ
  Yd : ℝ
  Zd : ℝ
  trkPar : Fin 5 → ℝ
  trkCov : CovMatrix

/-- One full smearing step for a resolved bin with Cholesky factor `L` and
covariance `C` (lines 219-294).  `Except.error ()` models the aborted
`assert(smeared_pt >= 0)`; the assert condition is `>= 0`, so only a strictly
negative reconstructed pt aborts. -/
noncomputable def processTrack (L C : CovMatrix) (t : TrackIn)
    (r : Fin 5 → ℝ) : Except Unit TrackOut :=
  let phid0 := t.phi - Real.pi / 2
  let smeared := smearedVec L t r
  let smeared_pt := reconstructedPt L t r
  if smeared_pt < 0 then .error () else
  let smeared_eta := -Real.log (Real.tan (smeared 3 / 2))
  let smeared_d0 := smeared 0
  let phid0_reco := phid0 + (smeared 2 - t.phi)
  .ok { pt := smeared_pt
        eta := smeared_eta
        phi := smeared 2
        m := t.m
        Dxy := smeared_d0
        SDxy := Real.sqrt |C 0 0|
        Xd := smeared_d0 * Real.cos phid0_reco
        Yd := smeared_d0 * Real.sin phid0_reco
        Zd := smeared 1
        trkPar := smeared
        trkCov := C }

/-- C7: the forward transform computes
`d0 = (xd·py − yd·px)/pt` with `px = pt·cos phi`, `py = pt·sin phi`,
`z0 = zd`, phi unchanged, `theta = 2·atan(exp(−eta))`,
`qoverp = charge/(pt·cosh eta)`; and the scenario track (charge +1, pt 50,
eta 0, phi 0, displacement (0.001, 0, 0)) has d0 = 0 exactly. -/
theorem claim_C7_forward_transform :
    (∀ t : TrackIn,
      forwardVec t 0 =
        (t.xd * (t.pt * Real.sin t.phi) - t.yd * (t.pt * Real.cos t.phi)) /
          t.pt ∧
      forwardVec t 1 = t.zd ∧
      forwardVec t 2 = t.phi ∧
      forwardVec t 3 = 2 * Real.arctan (Real.exp (-t.eta)) ∧
      forwardVec t 4 = (t.charge : ℝ) / (t.pt * Real.cosh t.eta)) ∧
    forwardVec ⟨1, 50, 0, 0, 0, 0.001, 0, 0⟩ 0 = 0 := by
  constructor
  · intro t
    refine ⟨rfl, rfl, rfl, rfl, rfl⟩
  · show ((0.001 : ℝ) * (50 * Real.sin 0) - 0 * (50 * Real.cos 0)) / 50 = 0
    norm_num [Real.sin_zero]

lemma forwardVec_d0 (t : TrackIn) : forwardVec t 0 =
    (t.xd * (t.pt * Real.sin t.phi) - t.yd * (t.pt * Real.cos t.phi)) /
      t.pt := rfl

lemma forwardVec_phi_entry (t : TrackIn) : forwardVec t 2 = t.phi := rfl

lemma forwardVec_theta (t : TrackIn) :
    forwardVec t 3 = 2 * Real.arctan (Real.exp (-t.eta)) := rfl

lemma forwardVec_qoverp (t : TrackIn) :
    forwardVec t 4 = (t.charge : ℝ) / (t.pt * Real.cosh t.eta) := rfl

lemma smearedVec_zero (L : CovMatrix) (t : TrackIn) :
    smearedVec L t 0 = forwardVec t := by
  rw [smearedVec, Matrix.mulVec_zero, zero_add]

lemma reconstructedPt_zero_noise (L : CovMatrix) (t : TrackIn)
    (hq : t.charge ≠ 0) : reconstructedPt L t 0 = t.pt := by
  rw [reconstructedPt, smearedVec_zero, forwardVec_qoverp]
  have hch : Real.cosh t.eta ≠ 0 := (Real.cosh_pos t.eta).ne'
  have hq' : (t.charge : ℝ) ≠ 0 := Int.cast_ne_zero.mpr hq
  field_simp
  ring

/-- The whole per-track step, with the lets unfolded. -/
lemma processTrack_eq (L C : CovMatrix) (t : TrackIn) (r : Fin 5 → ℝ) :
    processTrack L C t r =
      if reconstructedPt L t r < 0 then .error () else
      .ok { pt := reconstructedPt L t r
            eta := -Real.log (Real.tan (smearedVec L t r 3 / 2))
            phi := smearedVec L t r 2
            m := t.m
            Dxy := smearedVec L t r 0
            SDxy := Real.sqrt |C 0 0|
            Xd := smearedVec L t r 0 *
              Real.cos ((t.phi - Real.pi / 2) + (smearedVec L t r 2 - t.phi))
            Yd := smearedVec L t r 0 *
              Real.sin ((t.phi - Real.pi / 2) + (smearedVec L t r 2 - t.phi))
            Zd := smearedVec L t r 1
            trkPar := smearedVec L t r
            trkCov := C } := rfl

lemma cos_phi_sub_half_pi (phi : ℝ) :
    Real.cos (phi - Real.pi / 2) = Real.sin phi := by
  rw [show phi - Real.pi / 2 = -(Real.pi / 2 - phi) by ring, Real.cos_neg,
    Real.cos_pi_div_two_sub]

lemma sin_phi_sub_half_pi (phi : ℝ) :
    Real.sin (phi - Real.pi / 2) = -Real.cos phi := by
  rw [show phi - Real.pi / 2 = -(Real.pi / 2 - phi) by ring, Real.sin_neg,
    Real.sin_pi_div_two_sub]

/-- C2 counterexample: the claim demands `Xd` be reproduced for EVERY
displacement, but the code recomputes `Xd = d0·cos(phi_d0)`; for the track
(charge +1, pt 50, eta 0, phi 0) with displacement (1, 0, 0) — parallel to
the momentum — the zero-noise d0 is 0, so the emitted `Xd` is 0, not the
input 1. -/
theorem claim_C2_roundtrip_counterexample :
    (processTrack 1 1 ⟨1, 50, 0, 0, 0, 1, 0, 0⟩ 0).toOption.map TrackOut.Xd =
      some 0 ∧ (0 : ℝ) ≠ 1 := by
  refine ⟨?_, by norm_num⟩
  have hrec : reconstructedPt 1 ⟨1, 50, 0, 0, 0, 1, 0, 0⟩ 0 = 50 :=
    reconstructedPt_zero_noise 1 ⟨1, 50, 0, 0, 0, 1, 0, 0⟩ (by decide)
  rw [processTrack_eq, if_neg (by rw [hrec]; norm_num)]
  refine congrArg some ?_
  show smearedVec 1 ⟨1, 50, 0, 0, 0, 1, 0, 0⟩ 0 0 * Real.cos _ = 0
  rw [smearedVec_zero, forwardVec_d0]
  norm_num [Real.sin_zero]

/-- C2 amended: with zero noise the smeared track reproduces the input's
momentum (pt, eta, phi, mass), impact parameters d0 and z0 exactly; the
Cartesian displacement is recomputed as `d0·(cos, sin)(phi − π/2)` and equals
the input (xd, yd) exactly when the input displacement is transverse to the
transverse momentum direction (`xd·cos phi + yd·sin phi = 0`, a true perigee
point), but not in general. -/
theorem claim_C2_zero_noise_roundtrip (L C : CovMatrix) (t : TrackIn)
    (hq : t.charge ≠ 0) (hpt : 0 < t.pt) :
    ∃ out : TrackOut, processTrack L C t 0 = .ok out ∧
      out.pt = t.pt ∧ out.eta = t.eta ∧ out.phi = t.phi ∧ out.m = t.m ∧
      out.Dxy = forwardVec t 0 ∧ out.Zd = t.zd ∧
      (t.xd * Real.cos t.phi + t.yd * Real.sin t.phi = 0 →
        out.Xd = t.xd ∧ out.Yd = t.yd) := by
  have hrec := reconstructedPt_zero_noise L t hq
  rw [processTrack_eq, if_neg (by rw [hrec]; exact not_lt.mpr hpt.le)]
  refine ⟨_, rfl, hrec, ?_, ?_, rfl, ?_, ?_, ?_⟩
  · rw [smearedVec_zero, forwardVec_theta]
    rw [show (2 : ℝ) * Real.arctan (Real.exp (-t.eta)) / 2 =
      Real.arctan (Real.exp (-t.eta)) by ring]
    rw [Real.tan_arctan, Real.log_exp, neg_neg]
  · rw [smearedVec_zero, forwardVec_phi_entry]
  · rw [smearedVec_zero]
  · rw [smearedVec_zero]; rfl
  · intro hperp
    have harg : (t.phi - Real.pi / 2) + (smearedVec L t 0 2 - t.phi) =
        t.phi - Real.pi / 2 := by
      rw [smearedVec_zero, forwardVec_phi_entry]; ring
    have hd0 : forwardVec t 0 =
        t.xd * Real.sin t.phi - t.yd * Real.cos t.phi := by
      rw [forwardVec_d0]
      field_simp
      ring
    constructor
    · show smearedVec L t 0 0 * Real.cos _ = t.xd
      rw [harg, cos_phi_sub_half_pi, smearedVec_zero, hd0]
      linear_combination (-(Real.cos t.phi)) * hperp +
        t.xd * (Real.sin_sq_add_cos_sq t.phi)
    · show smearedVec L t 0 0 * Real.sin _ = t.yd
      rw [harg, sin_phi_sub_half_pi, smearedVec_zero, hd0]
      linear_combination (-(Real.sin t.phi)) * hperp +
        t.yd * (Real.sin_sq_add_cos_sq t.phi)

/-- Witness for C2 (amended): the round-trip at a concrete perigee-consistent
track: charge +1, pt 50, eta 0, phi 0, displacement (0, 3, 7), which is
transverse to the momentum direction (1, 0). -/
theorem claim_C2_zero_noise_roundtrip_witness :
    (1 : ℤ) ≠ 0 ∧ (0 : ℝ) < 50 ∧
    ∃ out : TrackOut, processTrack 1 1 ⟨1, 50, 0, 0, 0, 0, 3, 7⟩ 0 = .ok out ∧
      out.pt = 50 ∧ out.eta = 0 ∧ out.phi = 0 ∧ out.m = 0 ∧
      out.Dxy = forwardVec ⟨1, 50, 0, 0, 0, 0, 3, 7⟩ 0 ∧ out.Zd = 7 ∧
      ((0 : ℝ) * Real.cos 0 + 3 * Real.sin 0 = 0 →
        out.Xd = 0 ∧ out.Yd = 3) := by
  exact ⟨by decide, by norm_num,
    claim_C2_zero_noise_roundtrip 1 1 ⟨1, 50, 0, 0, 0, 0, 3, 7⟩ (by decide)
      (by norm_num)⟩

end IPCov

namespace IPCov

/-- C8 counterexample: the assert is `smeared_pt >= 0`, which a reconstructed
pt of exactly zero passes; with charge 0 (no guard in the code excludes it),
zero qoverp input and a unit noise kick on qoverp, the reconstructed pt is
exactly 0 and the call completes, emitting a track of non-positive pt —
the claim says a zero value aborts and is never emitted. -/
theorem claim_C8_zero_pt_counterexample :
    reconstructedPt 1 ⟨0, 50, 0, 0, 0, 0, 0, 0⟩ ![0, 0, 0, 0, 1] = 0 ∧
    (processTrack 1 1 ⟨0, 50, 0, 0, 0, 0, 0, 0⟩ ![0, 0, 0, 0, 1]).toOption.map
      TrackOut.pt = some 0 := by
  have h4 : smearedVec 1 ⟨0, 50, 0, 0, 0, 0, 0, 0⟩ ![0, 0, 0, 0, 1] 4 = 1 := by
    rw [smearedVec, Matrix.one_mulVec]
    show (1 : ℝ) + ((0 : ℤ) : ℝ) / (50 * Real.cosh 0) = 1
    norm_num
  have hrec : reconstructedPt 1 ⟨0, 50, 0, 0, 0, 0, 0, 0⟩ ![0, 0, 0, 0, 1] = 0 := by
    rw [reconstructedPt, h4]
    norm_num
  refine ⟨hrec, ?_⟩
  rw [processTrack_eq, if_neg (by rw [hrec]; norm_num)]
  exact congrArg some hrec

/-- C8 amended: a completed call's emitted pt is the reconstructed
`charge/(smeared qoverp · cosh eta)` and is never strictly negative; a
strictly negative reconstructed pt fails the assertion and aborts (zero
passes). -/
theorem claim_C8_negative_pt_fatal (L C : CovMatrix) (t : TrackIn)
    (r : Fin 5 → ℝ) :
    (∀ out : TrackOut, processTrack L C t r = .ok out →
      out.pt = reconstructedPt L t r ∧ 0 ≤ out.pt) ∧
    (reconstructedPt L t r < 0 → processTrack L C t r = .error ()) := by
  constructor
  · intro out hok
    rw [processTrack_eq] at hok
    by_cases hneg : reconstructedPt L t r < 0
    · rw [if_pos hneg] at hok
      exact absurd hok (by simp)
    · rw [if_neg hneg] at hok
      rw [← Except.ok.inj hok]
      exact ⟨rfl, not_lt.mp hneg⟩
  · intro hneg
    rw [processTrack_eq, if_pos hneg]

/-- Witness for C8 (amended): a negative reconstructed pt (charge +1, a noise
kick sending qoverp to −1 + 1/50) aborts; and on a clean zero-noise track the
emitted pt equals the reconstructed pt. -/
theorem claim_C8_negative_pt_fatal_witness :
    reconstructedPt 1 ⟨1, 50, 0, 0, 0, 0, 0, 0⟩ ![0, 0, 0, 0, -1] < 0 ∧
    processTrack 1 1 ⟨1, 50, 0, 0, 0, 0, 0, 0⟩ ![0, 0, 0, 0, -1] =
      .error () ∧
    (processTrack 1 1 ⟨1, 60, 0, 0, 0, 0, 0, 0⟩ 0).toOption.map TrackOut.pt =
      some (reconstructedPt 1 ⟨1, 60, 0, 0, 0, 0, 0, 0⟩ 0) := by
  have h4 : smearedVec 1 ⟨1, 50, 0, 0, 0, 0, 0, 0⟩ ![0, 0, 0, 0, -1] 4 =
      -1 + 1 / 50 := by
    rw [smearedVec, Matrix.one_mulVec]
    show (-1 : ℝ) + ((1 : ℤ) : ℝ) / (50 * Real.cosh 0) = -1 + 1 / 50
    norm_num
  have hrec : reconstructedPt 1 ⟨1, 50, 0, 0, 0, 0, 0, 0⟩ ![0, 0, 0, 0, -1] <
      0 := by
    rw [reconstructedPt, h4, Real.cosh_zero]
    norm_num
  have hgood : reconstructedPt 1 ⟨1, 60, 0, 0, 0, 0, 0, 0⟩ 0 = 60 :=
    reconstructedPt_zero_noise 1 ⟨1, 60, 0, 0, 0, 0, 0, 0⟩ (by decide)
  have hok : processTrack 1 1 ⟨1, 60, 0, 0, 0, 0, 0, 0⟩ 0 =
      .ok { pt := reconstructedPt 1 ⟨1, 60, 0, 0, 0, 0, 0, 0⟩ 0
            eta := -Real.log (Real.tan
              (smearedVec 1 ⟨1, 60, 0, 0, 0, 0, 0, 0⟩ 0 3 / 2))
            phi := smearedVec 1 ⟨1, 60, 0, 0, 0, 0, 0, 0⟩ 0 2
            m := 0
            Dxy := smearedVec 1 ⟨1, 60, 0, 0, 0, 0, 0, 0⟩ 0 0
            SDxy := Real.sqrt |(1 : CovMatrix) 0 0|
            Xd := smearedVec 1 ⟨1, 60, 0, 0, 0, 0, 0, 0⟩ 0 0 *
              Real.cos ((0 - Real.pi / 2) +
                (smearedVec 1 ⟨1, 60, 0, 0, 0, 0, 0, 0⟩ 0 2 - 0))
            Yd := smearedVec 1 ⟨1, 60, 0, 0, 0, 0, 0, 0⟩ 0 0 *
              Real.sin ((0 - Real.pi / 2) +
                (smearedVec 1 ⟨1, 60, 0, 0, 0, 0, 0, 0⟩ 0 2 - 0))
            Zd := smearedVec 1 ⟨1, 60, 0, 0, 0, 0, 0, 0⟩ 0 1
            trkPar := smearedVec 1 ⟨1, 60, 0, 0, 0, 0, 0, 0⟩ 0
            trkCov := 1 } := by
    rw [processTrack_eq, if_neg (by rw [hgood]; norm_num)]
  refine ⟨hrec, (claim_C8_negative_pt_fatal 1 1 _ _).2 hrec, ?_⟩
  rw [hok]
  exact congrArg some
    ((claim_C8_negative_pt_fatal 1 1 ⟨1, 60, 0, 0, 0, 0, 0, 0⟩ 0).1 _ hok).1

end IPCov

namespace IPCov

/-! ## Frame behaviour of Process (lines 252-294)

`Process` writes only through the fresh clone `smeared_track`
(`track->Clone()`): the track parameters (line 258), the covariance array
(line 263), the momentum and impact-parameter fields (lines 272-284) and,
at the end, the clone's own sub-candidate array (lines 290-292, cleared and
refilled with the input track).  The candidate store is modelled as a heap
of objects addressed by identifiers, `Clone` as allocation of the next fresh
identifier. -/

/-- The candidate fields `Process` reads or writes: kinematics, perigee
fields, the stored parameter/covariance payload, and the sub-candidate
identifier list. -/
structure Candidate where
  charge : ℤ
  pt : ℝ
  eta : ℝ
  phi : ℝ
  m : ℝ
  Xd : ℝ
  Yd : ℝ
  Zd : ℝ
  Dxy : ℝ
  SDxy : ℝ
  trkPar : Fin 5 → ℝ
  trkCov : CovMatrix
  candidates : List ℕ

/-- The candidate store: objects by identifier, plus the next fresh
identifier (every live object's identifier is below `next`). -/
structure Heap where
  objs : ℕ → Candidate
  next : ℕ

/-- The per-track input read in lines 192-217: kinematics and charge from
the wrapped generated particle (`track->GetCandidates()->At(0)`), perigee
displacement from the track itself. -/
def trackInOf (H : Heap) (tid : ℕ) : TrackIn :=
  let track := H.objs tid
  let particle := H.objs track.candidates.headI
  ⟨particle.charge, particle.pt, particle.eta, particle.phi, particle.m,
    track.Xd, track.Yd, track.Zd⟩

/-- The clone after all writes of lines 254-292: every other field keeps the
input track's cloned value; the candidate list is cleared and refilled with
the input track alone. -/
def smearedClone (track : Candidate) (tid : ℕ) (out : TrackOut) : Candidate :=
  { track with
    pt := out.pt, eta := out.eta, phi := out.phi, m := out.m,
    Xd := out.Xd, Yd := out.Yd, Zd := out.Zd,
    Dxy := out.Dxy, SDxy := out.SDxy,
    trkPar := out.trkPar, trkCov := out.trkCov,
    candidates := [tid] }

/-- One `Process` iteration on the heap: run the smearing on the track at
`tid`; on success allocate the clone at the fresh identifier and write the
smeared fields only there.  (On the failed assert the process dies; no heap
is produced.) -/
noncomputable def processHeap (L C : CovMatrix) (r : Fin 5 → ℝ) (H : Heap)
    (tid : ℕ) : Except Unit (Heap × ℕ) :=
  Except.map
    (fun out =>
      (⟨fun i => if i = H.next then smearedClone (H.objs tid) tid out
                 else H.objs i,
        H.next + 1⟩,
       H.next))
    (processTrack L C (trackInOf H tid) r)

lemma processTrack_ok_payload (L C : CovMatrix) (t : TrackIn) (r : Fin 5 → ℝ)
    (out : TrackOut) (h : processTrack L C t r = .ok out) :
    out.trkCov = C ∧ out.trkPar = smearedVec L t r := by
  rw [processTrack_eq] at h
  by_cases hneg : reconstructedPt L t r < 0
  · rw [if_pos hneg] at h
    exact absurd h (by simp)
  · rw [if_neg hneg] at h
    rw [← Except.ok.inj h]
    exact ⟨rfl, rfl⟩

/-- C9: a completed `Process` iteration leaves the input track (and every
other previously allocated object) unchanged; the smeared output identifier
is distinct from the input's; and the smeared parameter vector and the bin's
covariance are written only into that fresh object, whose sub-candidate list
holds exactly the input track. -/
theorem claim_C9_input_never_mutated (L C : CovMatrix) (r : Fin 5 → ℝ)
    (H : Heap) (tid : ℕ) (h : tid < H.next) :
    ∀ p ∈ (processHeap L C r H tid).toOption,
      p.1.objs tid = H.objs tid ∧
      p.2 ≠ tid ∧
      (∀ j, j ≠ p.2 → p.1.objs j = H.objs j) ∧
      (p.1.objs p.2).trkCov = C ∧
      (p.1.objs p.2).trkPar = smearedVec L (trackInOf H tid) r ∧
      (p.1.objs p.2).candidates = [tid] := by
  intro p hp
  rw [processHeap] at hp
  cases hpt : processTrack L C (trackInOf H tid) r with
  | error e =>
      rw [hpt] at hp
      simp [Except.map, Except.toOption] at hp
  | ok out =>
      rw [hpt] at hp
      simp only [Except.map, Except.toOption, Option.mem_def,
        Option.some.injEq] at hp
      subst hp
      obtain ⟨hcov, hpar⟩ := processTrack_ok_payload L C (trackInOf H tid) r
        out hpt
      refine ⟨?_, by omega, ?_, ?_, ?_, ?_⟩
      · show (if tid = H.next then _ else H.objs tid) = H.objs tid
        rw [if_neg (by omega)]
      · intro j hj
        show (if j = H.next then _ else H.objs j) = H.objs j
        rw [if_neg hj]
      · show (if H.next = H.next then smearedClone (H.objs tid) tid out
              else H.objs H.next).trkCov = C
        rw [if_pos rfl]
        exact hcov
      · show (if H.next = H.next then smearedClone (H.objs tid) tid out
              else H.objs H.next).trkPar = _
        rw [if_pos rfl]
        exact hpar
      · show (if H.next = H.next then smearedClone (H.objs tid) tid out
              else H.objs H.next).candidates = [tid]
        rw [if_pos rfl]
        rfl

/-- Witness for C9: a two-object heap — the track at identifier 0 wrapping
the generated particle at identifier 1 — processed with zero noise. -/
theorem claim_C9_input_never_mutated_witness :
    (0 : ℕ) < 2 ∧
    ∀ p ∈ (processHeap 1 1 0
        ⟨fun i => if i = 0
          then ⟨1, 50, 0, 0, 0, 0, 3, 7, 0, 0, 0, 1, [1]⟩
          else ⟨1, 50, 0, 0, 0, 0, 0, 0, 0, 0, 0, 1, []⟩, 2⟩
        0).toOption,
      p.1.objs 0 = (⟨fun i => if i = 0
          then ⟨1, 50, 0, 0, 0, 0, 3, 7, 0, 0, 0, 1, [1]⟩
          else ⟨1, 50, 0, 0, 0, 0, 0, 0, 0, 0, 0, 1, []⟩, 2⟩ : Heap).objs 0 ∧
      p.2 ≠ 0 ∧
      (∀ j, j ≠ p.2 → p.1.objs j = (⟨fun i => if i = 0
          then ⟨1, 50, 0, 0, 0, 0, 3, 7, 0, 0, 0, 1, [1]⟩
          else ⟨1, 50, 0, 0, 0, 0, 0, 0, 0, 0, 0, 1, []⟩, 2⟩ : Heap).objs j) ∧
      (p.1.objs p.2).trkCov = 1 ∧
      (p.1.objs p.2).trkPar = smearedVec 1 (trackInOf ⟨fun i => if i = 0
          then ⟨1, 50, 0, 0, 0, 0, 3, 7, 0, 0, 0, 1, [1]⟩
          else ⟨1, 50, 0, 0, 0, 0, 0, 0, 0, 0, 0, 1, []⟩, 2⟩ 0) 0 ∧
      (p.1.objs p.2).candidates = [0] := by
  exact ⟨by norm_num,
    claim_C9_input_never_mutated 1 1 0
      ⟨fun i => if i = 0
        then ⟨1, 50, 0, 0, 0, 0, 3, 7, 0, 0, 0, 1, [1]⟩
        else ⟨1, 50, 0, 0, 0, 0, 0, 0, 0, 0, 0, 1, []⟩, 2⟩
      0 (by norm_num)⟩

end IPCov
